import Mathlib

/-!
# examples/protostar/stack/helpers.c

A shallow embedding of the two helpers `flag` and `tryagain` and of the part of
the C library they call (`fopen`, `fread`, `fputs`, `puts`, `exit`).

* A `char` is a `Byte` (`Fin 256`).
* The process state is a `World`: the files that can be opened, the table of open
  streams (a `FILE *` is an index into it), the bytes written to standard output
  so far, and a log of the library calls made.
* The automatic array `char buffer[1024]` is not initialised by the source, so its
  content at entry is a parameter of `flag`.
* `fputs` writes a NUL-terminated string.  Its scan for the zero byte is
  bounds-checked against the array it is given: leaving the array is the error branch
  of `fputs`, carrying the index at which the array was left.
* The source drops the result of `fputs`, and the only exit of its loop is a read of
  zero bytes.  A write whose scan left the array (undefined behaviour in C) is logged as
  `Call.overrun` and the loop goes on; what such a write puts on standard output is
  outside the model, which leaves standard output as it was.
* Writes to standard output and reads from an open stream are assumed not to fail.
-/

namespace Helpers

/-- A C `char`, as an unsigned byte. -/
abbrev Byte := Fin 256

/-- The bytes of an ASCII string literal. -/
def bytes (s : String) : List Byte :=
  s.toList.map (fun c => Fin.ofNat c.toNat)

/-- An open stream (`FILE`): the content of the file and the read cursor. -/
structure FILE where
  data : List Byte
  pos : Nat
deriving DecidableEq, Repr

/-- A library call, as recorded in the log of a `World`. -/
inductive Call where
  | fopen (path : String) (ok : Bool)
  | fread (got : Nat)
  | fputs (wrote : List Byte)
  /-- A call of `fputs` whose scan for the zero byte left the array at `index`. -/
  | overrun (index : Nat)
  | puts (line : List Byte)
  | exit (status : Int)
deriving DecidableEq, Repr

/-- The process state seen by the helpers. -/
structure World where
  /-- The content of each file that can be opened for reading. -/
  fs : List (String × List Byte)
  /-- The table of open streams; a `FILE *` is an index into it. -/
  streams : List FILE
  /-- The bytes written to standard output so far. -/
  stdout : List Byte
  /-- The library calls made so far, oldest first. -/
  calls : List Call
deriving DecidableEq, Repr

/-- How a call of a helper ends. -/
inductive Outcome where
  /-- The function returned to its caller. -/
  | returned (w : World)
  /-- The process was terminated by `exit`. -/
  | exited (status : Int) (w : World)
  /-- The loop budget of the embedding ran out. -/
  | outOfFuel
deriving DecidableEq, Repr

/-- The state in which a call ended. -/
def Outcome.world : Outcome → Option World
  | .returned w => some w
  | .exited _ w => some w
  | .outOfFuel => none

/-- The caller's code `k` after a call: it runs only when the call returned. -/
def Outcome.andThen (o : Outcome) (k : World → Outcome) : Outcome :=
  match o with
  | .returned w => k w
  | other => other

/-- The handles of the open streams. -/
def World.openHandles (w : World) : Finset Nat :=
  Finset.range w.streams.length

/-- The bytes of stream `ff` not read yet. -/
def World.remaining (w : World) (ff : Nat) : Nat :=
  match w.streams[ff]? with
  | none => 0
  | some f => f.data.length - f.pos

/-- Library `fopen(path, "r")`: `none` is `NULL`. -/
def fopen (path : String) (w : World) : Option Nat × World :=
  match w.fs.lookup path with
  | none => (none, { w with calls := w.calls ++ [.fopen path false] })
  | some data =>
    (some w.streams.length,
      { w with streams := w.streams ++ [⟨data, 0⟩], calls := w.calls ++ [.fopen path true] })

/-- Library `fread(buffer, 1, nmemb, ff)`: the count read, the array afterwards and the
state afterwards. Bytes of the array beyond the count read keep their value. -/
def fread (buffer : List Byte) (nmemb : Nat) (ff : Nat) (w : World) :
    Nat × List Byte × World :=
  match w.streams[ff]? with
  | none => (0, buffer, { w with calls := w.calls ++ [.fread 0] })
  | some f =>
    let chunk := (f.data.drop f.pos).take nmemb
    (chunk.length, chunk ++ buffer.drop chunk.length,
      { w with
        streams := w.streams.set ff { f with pos := f.pos + chunk.length }
        calls := w.calls ++ [.fread chunk.length] })

/-- The C string held in an array, scanned from array index `i`: the bytes before the
first zero byte, or the index at which the scan left the array. -/
def cstring (i : Nat) : List Byte → Except Nat (List Byte)
  | [] => .error i
  | b :: bs => if b = 0 then .ok [] else (cstring (i + 1) bs).map (b :: ·)

/-- The prefix of `l` before its first zero byte (all of `l` when it has none). -/
def beforeZero : List Byte → List Byte
  | [] => []
  | b :: bs => if b = 0 then [] else b :: beforeZero bs

/-- Library `fputs(s, stdout)`. -/
def fputs (s : List Byte) (w : World) : Except Nat World :=
  match cstring 0 s with
  | .error i => .error i
  | .ok str => .ok { w with stdout := w.stdout ++ str, calls := w.calls ++ [.fputs str] }

/-- Library `puts(s)` for a string literal `s`: the string and a newline. -/
def puts (s : String) (w : World) : World :=
  { w with stdout := w.stdout ++ bytes s ++ [10], calls := w.calls ++ [.puts (bytes s)] }

/-- Library `exit(status)`. -/
def exit (status : Int) (w : World) : Outcome :=
  .exited status { w with calls := w.calls ++ [.exit status] }

/-- The statement `fputs(buffer, stdout);` of the loop body: the result of the call is
dropped. A call that took the error branch is logged as an overrun and adds nothing to
the modelled standard output: what C writes then is undefined. -/
def fputsStmt (s : List Byte) (w : World) : World :=
  match fputs s w with
  | .error i => { w with calls := w.calls ++ [.overrun i] }
  | .ok w1 => w1

/-- The loop `while (fread(&buffer, sizeof(char), 1024, ff) != 0) fputs(buffer, stdout);`
with a budget of `fuel` evaluations of the condition. Its only exit is a read of zero
bytes. -/
def flagLoop : Nat → Nat → List Byte → World → Outcome
  | 0, _, _, _ => .outOfFuel
  | fuel + 1, ff, buffer, w =>
    match fread buffer 1024 ff w with
    | (n, buffer1, w1) =>
      if n ≠ 0 then flagLoop fuel ff buffer1 (fputsStmt buffer1 w1)
      else .returned w1

/-- The helper `flag`. `buffer` is the content of the uninitialised array at entry.
The loop budget is one more than the number of bytes of the stream, which the loop
never uses up (`flagLoop_fuel`). -/
def flag (buffer : List Byte) (w : World) : Outcome :=
  match fopen "flag.txt" w with
  | (none, w1) => .returned (puts "Couldn't open flag file!" w1)
  | (some ff, w1) => flagLoop (w1.remaining ff + 1) ff buffer w1

/-- The helper `tryagain`. -/
def tryagain (w : World) : Outcome :=
  exit 1 (puts "Try again!" w)

/-- The state inside a call of `flag` made in state `w`, after `flag.txt` with content
`data` was opened: the new stream has its cursor at `pos`, `out` was appended to standard
output, and the calls `cs` followed the `fopen`. -/
def World.during (w : World) (data : List Byte) (pos : Nat) (out : List Byte)
    (cs : List Call) : World :=
  { w with
    streams := w.streams ++ [⟨data, pos⟩]
    stdout := w.stdout ++ out
    calls := w.calls ++ Call.fopen "flag.txt" true :: cs }

/-- The bytes a call appended to standard output, when it ended in a state whose
standard output extends that of `w`. -/
def appended (w : World) (o : Outcome) : Option (List Byte) :=
  match o.world with
  | none => none
  | some w1 => if w.stdout <+: w1.stdout then some (w1.stdout.drop w.stdout.length) else none

/-! ### Reading a log -/

/-- The counts returned by the calls of `fread` in a log, oldest first. -/
def readCounts : List Call → List Nat
  | [] => []
  | .fread n :: cs => n :: readCounts cs
  | _ :: cs => readCounts cs

/-- The number of calls of `fputs` in a log. -/
def writeCount : List Call → Nat
  | [] => 0
  | .fputs _ :: cs => writeCount cs + 1
  | .overrun _ :: cs => writeCount cs + 1
  | _ :: cs => writeCount cs

/-- The sizes of the chunks of an artifact of `L` bytes cut every 1024 bytes: full
chunks, then the rest when `L` is not a multiple of 1024. There are `ceil(L/1024)`. -/
def chunkSizes (L : Nat) : List Nat :=
  List.replicate (L / 1024) 1024 ++ (if L % 1024 = 0 then [] else [L % 1024])

/-! ### Concrete inputs -/

/-- A fresh process in which `flag.txt` can be opened and has content `C`. -/
def worldWith (C : List Byte) : World :=
  ⟨[("flag.txt", C)], [], [], []⟩

/-- A fresh process in which `flag.txt` cannot be opened. -/
def noFlag : World :=
  ⟨[], [], [], []⟩

/-- An array of 1024 bytes that starts with `pre` and is zero after it. -/
def padded (pre : List Byte) : List Byte :=
  pre ++ List.replicate (1024 - pre.length) 0

/-- An artifact of 1026 bytes: `ABCD`, a zero byte, filler up to 1024 bytes, then `XY`. -/
def staleArtifact : List Byte :=
  [65, 66, 67, 68, 0] ++ (List.replicate 1019 46 ++ [88, 89])

/-! ## The library calls -/

theorem cstring_ok (l : List Byte) : ∀ (i : Nat), (0 : Byte) ∈ l →
    cstring i l = .ok (beforeZero l) := by
  induction l with
  | nil => intro i h; simp at h
  | cons b bs ih =>
    intro i h
    by_cases hb : b = 0
    · simp [cstring, beforeZero, hb]
    · have hbs : (0 : Byte) ∈ bs := by
        rcases List.mem_cons.mp h with h0 | h0
        · exact absurd h0.symm hb
        · exact h0
      simp [cstring, beforeZero, hb, ih (i + 1) hbs, Except.map]

theorem cstring_error (l : List Byte) : ∀ (i : Nat), (0 : Byte) ∉ l →
    cstring i l = .error (i + l.length) := by
  induction l with
  | nil => intro i _; simp [cstring]
  | cons b bs ih =>
    intro i h
    have hb : b ≠ 0 := fun hb => h (by simp [hb])
    have hbs : (0 : Byte) ∉ bs := fun hbs => h (List.mem_cons_of_mem _ hbs)
    simp [cstring, hb, ih (i + 1) hbs, Except.map]
    omega

theorem beforeZero_of_not_mem (l : List Byte) (h : (0 : Byte) ∉ l) : beforeZero l = l := by
  induction l with
  | nil => rfl
  | cons b bs ih =>
    have hb : b ≠ 0 := fun hb => h (by simp [hb])
    have hbs : (0 : Byte) ∉ bs := fun hbs => h (List.mem_cons_of_mem _ hbs)
    simp [beforeZero, hb, ih hbs]

theorem beforeZero_append_of_not_mem (l r : List Byte) (h : (0 : Byte) ∉ l) :
    beforeZero (l ++ r) = l ++ beforeZero r := by
  induction l with
  | nil => rfl
  | cons b bs ih =>
    have hb : b ≠ 0 := fun hb => h (by simp [hb])
    have hbs : (0 : Byte) ∉ bs := fun hbs => h (List.mem_cons_of_mem _ hbs)
    simp [beforeZero, hb, ih hbs]

theorem beforeZero_append_of_mem (l r : List Byte) (h : (0 : Byte) ∈ l) :
    beforeZero (l ++ r) = beforeZero l := by
  induction l with
  | nil => simp at h
  | cons b bs ih =>
    by_cases hb : b = 0
    · simp [beforeZero, hb]
    · have hbs : (0 : Byte) ∈ bs := by
        rcases List.mem_cons.mp h with h0 | h0
        · exact absurd h0.symm hb
        · exact h0
      simp [beforeZero, hb, ih hbs]

/-- With a zero byte in `l`, the part before the first one is a strict prefix. -/
theorem beforeZero_strict (l : List Byte) (h : (0 : Byte) ∈ l) :
    ∃ t, t ≠ [] ∧ l = beforeZero l ++ t := by
  induction l with
  | nil => simp at h
  | cons b bs ih =>
    by_cases hb : b = 0
    · exact ⟨b :: bs, by simp, by simp [beforeZero, hb]⟩
    · have hbs : (0 : Byte) ∈ bs := by
        rcases List.mem_cons.mp h with h0 | h0
        · exact absurd h0.symm hb
        · exact h0
      obtain ⟨t, ht, hl⟩ := ih hbs
      refine ⟨t, ht, ?_⟩
      simp only [beforeZero, hb, if_false, List.cons_append, List.cons.injEq, true_and]
      exact hl

/-- The first zero byte of `l` is at index `p`. -/
theorem beforeZero_first_zero (l : List Byte) : ∀ (p : Nat), (0 : Byte) ∉ l.take p →
    l[p]? = some 0 → beforeZero l = l.take p ∧ (0 : Byte) ∈ l := by
  induction l with
  | nil => intro p _ h; simp at h
  | cons b bs ih =>
    intro p hp hz
    cases p with
    | zero =>
      have hb : b = 0 := by simpa using hz
      simp [beforeZero, hb]
    | succ q =>
      have hb : b ≠ 0 := fun hb => hp (by simp [hb])
      have hq : (0 : Byte) ∉ bs.take q := fun hq => hp (by simp [hq])
      have hz1 : bs[q]? = some 0 := by simpa using hz
      obtain ⟨h1, h2⟩ := ih q hq hz1
      exact ⟨by simp [beforeZero, hb, h1], List.mem_cons_of_mem _ h2⟩

theorem beforeZero_initial (l : List Byte) : beforeZero l <+: l := by
  induction l with
  | nil => simp [beforeZero]
  | cons b bs ih =>
    by_cases hb : b = 0
    · simp [beforeZero, hb]
    · simp only [beforeZero, hb, if_false]
      exact (List.prefix_cons_inj b).mpr ih

/-! ## Logs and chunk sizes -/

theorem readCounts_append (a b : List Call) :
    readCounts (a ++ b) = readCounts a ++ readCounts b := by
  induction a with
  | nil => rfl
  | cons c cs ih => cases c <;> simp [readCounts, ih]

theorem writeCount_append (a b : List Call) :
    writeCount (a ++ b) = writeCount a + writeCount b := by
  induction a with
  | nil => simp [writeCount]
  | cons c cs ih => cases c <;> simp [writeCount, ih] <;> omega

theorem chunkSizes_zero : chunkSizes 0 = [] := by
  simp [chunkSizes]

/-- The first chunk of a nonempty rest has `min 1024 r` bytes. -/
theorem chunkSizes_step (r : Nat) (h : 0 < r) :
    chunkSizes r = min 1024 r :: chunkSizes (r - min 1024 r) := by
  by_cases hr : 1024 ≤ r
  · have h1 : r / 1024 = (r - 1024) / 1024 + 1 := by omega
    have h2 : r % 1024 = (r - 1024) % 1024 := by omega
    have hm : min 1024 r = 1024 := by omega
    rw [hm]
    unfold chunkSizes
    rw [h1, h2, List.replicate_succ, List.cons_append]
  · have h1 : r / 1024 = 0 := by omega
    have h2 : r % 1024 = r := by omega
    have hm : min 1024 r = r := by omega
    have h3 : r ≠ 0 := by omega
    rw [hm, Nat.sub_self, chunkSizes_zero]
    unfold chunkSizes
    rw [h1, h2, if_neg h3]
    rfl

theorem chunkSizes_length (L : Nat) : (chunkSizes L).length = (L + 1023) / 1024 := by
  unfold chunkSizes
  rw [List.length_append, List.length_replicate]
  split_ifs with h
  · simp only [List.length_nil]; omega
  · simp only [List.length_cons, List.length_nil]; omega

theorem chunkSizes_bounds (L : Nat) : ∀ n ∈ chunkSizes L, 0 < n ∧ n ≤ 1024 := by
  intro n hn
  unfold chunkSizes at hn
  rcases List.mem_append.mp hn with h | h
  · have := List.eq_of_mem_replicate h
    omega
  · split_ifs at h with h0
    · simp at h
    · have : n = L % 1024 := by simpa using h
      omega

theorem chunkSizes_sum (L : Nat) : (chunkSizes L).sum = L := by
  unfold chunkSizes
  rw [List.sum_append, List.sum_replicate, smul_eq_mul]
  split_ifs with h
  · simp only [List.sum_nil]; omega
  · simp only [List.sum_cons, List.sum_nil]; omega

/-! ## The loop -/

theorem fputsStmt_ok (s str : List Byte) (w : World) (h : cstring 0 s = .ok str) :
    fputsStmt s w =
      { w with stdout := w.stdout ++ str, calls := w.calls ++ [.fputs str] } := by
  simp [fputsStmt, fputs, h]

theorem fputsStmt_error (s : List Byte) (i : Nat) (w : World) (h : cstring 0 s = .error i) :
    fputsStmt s w = { w with calls := w.calls ++ [.overrun i] } := by
  simp [fputsStmt, fputs, h]

/-- A write leaves the streams and the files as they were and adds one call to the log. -/
theorem fputsStmt_effect (s : List Byte) (w : World) :
    (fputsStmt s w).streams = w.streams ∧ (fputsStmt s w).fs = w.fs ∧
      ∃ c, (fputsStmt s w).calls = w.calls ++ [c] ∧ readCounts [c] = [] ∧
        writeCount [c] = 1 := by
  cases h : cstring 0 s with
  | error i =>
    rw [fputsStmt_error s i w h]
    exact ⟨rfl, rfl, .overrun i, rfl, rfl, rfl⟩
  | ok str =>
    rw [fputsStmt_ok s str w h]
    exact ⟨rfl, rfl, .fputs str, rfl, rfl, rfl⟩

theorem flagLoop_succ (fuel ff : Nat) (buffer : List Byte) (w : World) (f : FILE)
    (h : w.streams[ff]? = some f) :
    flagLoop (fuel + 1) ff buffer w =
      if ((f.data.drop f.pos).take 1024).length ≠ 0 then
        flagLoop fuel ff
          ((f.data.drop f.pos).take 1024 ++ buffer.drop ((f.data.drop f.pos).take 1024).length)
          (fputsStmt
            ((f.data.drop f.pos).take 1024 ++
              buffer.drop ((f.data.drop f.pos).take 1024).length)
            { w with
              streams := w.streams.set ff
                { f with pos := f.pos + ((f.data.drop f.pos).take 1024).length }
              calls := w.calls ++ [.fread ((f.data.drop f.pos).take 1024).length] })
      else
        .returned { w with
          streams := w.streams.set ff
            { f with pos := f.pos + ((f.data.drop f.pos).take 1024).length }
          calls := w.calls ++ [.fread ((f.data.drop f.pos).take 1024).length] } := by
  simp only [flagLoop, fread, h]

/-- The loop from a state in which stream `ff` is the artifact `C` with its cursor at
`pos`: with a budget above the number of bytes left, the loop returns; the reads return
the sizes of the chunks left and then zero, in that order; each chunk is followed by one
call of `fputs`; the log ends with the read of zero bytes; the cursor ends where the
artifact ends. -/
theorem flagLoop_run (ff : Nat) (C : List Byte) :
    ∀ (fuel pos : Nat) (buffer : List Byte) (w : World),
      w.streams[ff]? = some ⟨C, pos⟩ → C.length - pos < fuel →
      ∃ w1 cs, flagLoop fuel ff buffer w = .returned w1 ∧ w1.calls = w.calls ++ cs ∧
        readCounts cs = chunkSizes (C.length - pos) ++ [0] ∧
        writeCount cs = (chunkSizes (C.length - pos)).length ∧
        cs.getLast? = some (.fread 0) ∧
        w1.streams = w.streams.set ff ⟨C, pos + (C.length - pos)⟩ ∧ w1.fs = w.fs := by
  intro fuel
  induction fuel with
  | zero => intro _ _ _ _ h; omega
  | succ m ih =>
    intro pos buffer w hs hfuel
    have hlt : ff < w.streams.length := by
      rcases List.getElem?_eq_some.mp hs with ⟨hlt, _⟩
      exact hlt
    have hn : ((C.drop pos).take 1024).length = min 1024 (C.length - pos) := by
      rw [List.length_take, List.length_drop]
    rw [flagLoop_succ m ff buffer w ⟨C, pos⟩ hs]
    simp only [hn]
    by_cases h0 : min 1024 (C.length - pos) = 0
    · have hr : C.length - pos = 0 := by omega
      rw [if_neg (by omega)]
      refine ⟨_, [.fread (min 1024 (C.length - pos))], rfl, rfl, ?_, ?_, ?_, ?_, rfl⟩
      · rw [hr, chunkSizes_zero]; rfl
      · rw [hr, chunkSizes_zero]; rfl
      · rw [hr]; rfl
      · rw [hr]; rfl
    · rw [if_pos h0]
      obtain ⟨hst, hfs, c, hcalls, hcr, hcw⟩ := fputsStmt_effect
        ((C.drop pos).take 1024 ++ buffer.drop (min 1024 (C.length - pos)))
        { w with
          streams := w.streams.set ff ⟨C, pos + min 1024 (C.length - pos)⟩
          calls := w.calls ++ [.fread (min 1024 (C.length - pos))] }
      have hs2 : (fputsStmt
          ((C.drop pos).take 1024 ++ buffer.drop (min 1024 (C.length - pos)))
          { w with
            streams := w.streams.set ff ⟨C, pos + min 1024 (C.length - pos)⟩
            calls := w.calls ++ [.fread (min 1024 (C.length - pos))] }).streams[ff]? =
          some ⟨C, pos + min 1024 (C.length - pos)⟩ := by
        rw [hst]
        simp [List.getElem?_set_self, hlt]
      obtain ⟨w1, cs, hrun, hc1, hrc, hwc, hlast, hstr, hfs1⟩ :=
        ih (pos + min 1024 (C.length - pos)) _ _ hs2 (by omega)
      have hrem : C.length - (pos + min 1024 (C.length - pos)) =
          (C.length - pos) - min 1024 (C.length - pos) := by omega
      have hstep := chunkSizes_step (C.length - pos) (by omega)
      refine ⟨w1, [.fread (min 1024 (C.length - pos)), c] ++ cs, hrun, ?_, ?_, ?_, ?_, ?_, ?_⟩
      · rw [hc1, hcalls]; simp
      · rw [readCounts_append, hrc, hrem, hstep]
        have : readCounts [.fread (min 1024 (C.length - pos)), c] =
            min 1024 (C.length - pos) :: readCounts [c] := rfl
        rw [this, hcr]; rfl
      · rw [writeCount_append, hwc, hrem, hstep]
        have : writeCount [.fread (min 1024 (C.length - pos)), c] = writeCount [c] := rfl
        rw [this, hcw, List.length_cons]; omega
      · rw [List.getLast?_append, hlast]; rfl
      · rw [hstr, hst]
        simp only [List.set_set]
        congr 2
        omega
      · rw [hfs1, hfs]

/-- The loop budget is irrelevant once it exceeds the number of bytes left in the stream,
and such a budget is never used up: the loop terminates. -/
theorem flagLoop_fuel (ff : Nat) : ∀ (fuel fuel1 : Nat) (buffer : List Byte) (w : World),
    w.remaining ff < fuel → w.remaining ff < fuel1 →
    flagLoop fuel ff buffer w = flagLoop fuel1 ff buffer w ∧
      flagLoop fuel ff buffer w ≠ .outOfFuel := by
  intro fuel
  induction fuel with
  | zero => intro _ _ _ h; omega
  | succ n ih =>
    intro fuel1 buffer w h1 h2
    cases fuel1 with
    | zero => omega
    | succ m =>
      cases hs : w.streams[ff]? with
      | none => simp [flagLoop, fread, hs]
      | some f =>
        have hr : w.remaining ff = f.data.length - f.pos := by simp [World.remaining, hs]
        have hlt : ff < w.streams.length := by
          rcases List.getElem?_eq_some.mp hs with ⟨hlt, _⟩
          exact hlt
        rw [flagLoop_succ n ff buffer w f hs, flagLoop_succ m ff buffer w f hs]
        split_ifs with hc
        · have hlen : ((f.data.drop f.pos).take 1024).length ≤ f.data.length - f.pos := by
            simp
          apply ih
          · simp only [World.remaining, (fputsStmt_effect _ _).1]
            simp only [List.getElem?_set_self hlt]
            omega
          · simp only [World.remaining, (fputsStmt_effect _ _).1]
            simp only [List.getElem?_set_self hlt]
            omega
        · simp

/-! ## The body of `flag` -/

theorem flag_eq_loop (B : List Byte) (w : World) (C : List Byte) (fuel : Nat)
    (h : w.fs.lookup "flag.txt" = some C) (hf : C.length < fuel) :
    flag B w = flagLoop fuel w.streams.length B (w.during C 0 [] []) := by
  have hr : (w.during C 0 [] []).remaining w.streams.length = C.length := by
    simp [World.remaining, World.during]
  have hl := (flagLoop_fuel w.streams.length (C.length + 1) fuel B (w.during C 0 [] [])
    (by omega) (by omega)).1
  rw [← hl]
  simp [flag, fopen, h, World.during, World.remaining]

theorem flagLoop_during (fuel : Nat) (B : List Byte) (w : World) (C : List Byte) (pos : Nat)
    (out : List Byte) (cs : List Call) :
    flagLoop (fuel + 1) w.streams.length B (w.during C pos out cs) =
      if ((C.drop pos).take 1024).length ≠ 0 then
        flagLoop fuel w.streams.length
          ((C.drop pos).take 1024 ++ B.drop ((C.drop pos).take 1024).length)
          (match cstring 0
              ((C.drop pos).take 1024 ++ B.drop ((C.drop pos).take 1024).length) with
            | .error i =>
              w.during C (pos + ((C.drop pos).take 1024).length) out
                (cs ++ [.fread ((C.drop pos).take 1024).length, .overrun i])
            | .ok str =>
              w.during C (pos + ((C.drop pos).take 1024).length) (out ++ str)
                (cs ++ [.fread ((C.drop pos).take 1024).length, .fputs str]))
      else
        .returned (w.during C (pos + ((C.drop pos).take 1024).length) out
          (cs ++ [.fread ((C.drop pos).take 1024).length])) := by
  have hs : (w.during C pos out cs).streams[w.streams.length]? = some ⟨C, pos⟩ := by
    simp [World.during]
  rw [flagLoop_succ fuel w.streams.length B _ ⟨C, pos⟩ hs]
  cases hc : cstring 0
      ((C.drop pos).take 1024 ++ B.drop ((C.drop pos).take 1024).length) with
  | error i =>
    rw [fputsStmt_error _ i _ hc]
    simp [World.during]
  | ok str =>
    rw [fputsStmt_ok _ str _ hc]
    simp [World.during]

theorem appended_during (w : World) (C : List Byte) (pos : Nat) (out : List Byte)
    (cs : List Call) : appended w (.returned (w.during C pos out cs)) = some out := by
  simp [appended, Outcome.world, World.during]

/-- An artifact that fits in one read: the loop runs once; here the write finds its
terminator. -/
theorem flag_one_chunk (B C str : List Byte) (w : World)
    (h : w.fs.lookup "flag.txt" = some C) (h0 : 0 < C.length) (h1 : C.length ≤ 1024)
    (hs : cstring 0 (C ++ B.drop C.length) = .ok str) :
    flag B w =
      .returned (w.during C C.length str [.fread C.length, .fputs str, .fread 0]) := by
  have ht : (C.drop 0).take 1024 = C := by simp [List.take_of_length_le h1]
  have hne : C.length ≠ 0 := by omega
  rw [flag_eq_loop B w C (C.length + 1 + 1) h (by omega), flagLoop_during, ht, if_pos hne, hs]
  simp only []
  rw [flagLoop_during]
  simp

/-- The first write of a call finds no terminator: it is logged as an overrun, nothing is
added to standard output, and the call goes on with the rest of the loop. -/
theorem flag_first_overrun (B C : List Byte) (i fuel : Nat) (w : World)
    (h : w.fs.lookup "flag.txt" = some C) (h0 : 0 < C.length) (hf : C.length ≤ fuel)
    (hs : cstring 0 (C.take 1024 ++ B.drop (C.take 1024).length) = .error i) :
    flag B w = flagLoop fuel w.streams.length (C.take 1024 ++ B.drop (C.take 1024).length)
      (w.during C (C.take 1024).length []
        [.fread (C.take 1024).length, .overrun i]) := by
  have hne : (C.take 1024).length ≠ 0 := by
    rw [List.length_take]; omega
  rw [flag_eq_loop B w C (fuel + 1) h (by omega), flagLoop_during]
  simp only [List.drop_zero]
  rw [if_pos hne, hs]
  simp

/-- An artifact of one full read and a second, shorter one; here both writes find their
terminator. -/
theorem flag_two_chunks (B C s1 s2 : List Byte) (k : Nat) (w : World)
    (h : w.fs.lookup "flag.txt" = some C) (hk0 : 0 < k) (hk : k ≤ 1024)
    (hlen : C.length = 1024 + k)
    (hs1 : cstring 0 (C.take 1024 ++ B.drop 1024) = .ok s1)
    (hs2 : cstring 0 (C.drop 1024 ++ (C.take 1024 ++ B.drop 1024).drop k) = .ok s2) :
    flag B w =
      .returned (w.during C (1024 + k) (s1 ++ s2)
        [.fread 1024, .fputs s1, .fread k, .fputs s2, .fread 0]) := by
  have hl1 : (C.take 1024).length = 1024 := by rw [List.length_take]; omega
  have hl2 : (C.drop 1024).length = k := by
    rw [List.length_drop]; omega
  have ht2 : (C.drop 1024).take 1024 = C.drop 1024 := by
    apply List.take_of_length_le
    rw [List.length_drop]; omega
  have hd3 : C.drop (1024 + k) = [] := by
    apply List.drop_of_length_le
    omega
  rw [flag_eq_loop B w C (C.length + 1 + 1 + 1) h (by omega), flagLoop_during]
  simp only [List.drop_zero, hl1]
  rw [if_pos (by omega), hs1]
  simp only []
  rw [flagLoop_during]
  simp only [Nat.zero_add, ht2, hl2]
  rw [if_pos (by omega), hs2]
  simp only []
  rw [flagLoop_during]
  simp [hd3]

/-- Every call of `flag` that opens the artifact returns, and its log is that of the
loop. -/
theorem flag_run (B C : List Byte) (w : World) (h : w.fs.lookup "flag.txt" = some C) :
    ∃ w1 cs, flag B w = .returned w1 ∧
      w1.calls = w.calls ++ Call.fopen "flag.txt" true :: cs ∧
      readCounts cs = chunkSizes C.length ++ [0] ∧
      writeCount cs = (chunkSizes C.length).length ∧
      cs.getLast? = some (.fread 0) ∧
      w1.streams = w.streams ++ [⟨C, C.length⟩] ∧ w1.fs = w.fs := by
  have hs : (w.during C 0 [] []).streams[w.streams.length]? = some ⟨C, 0⟩ := by
    simp [World.during]
  obtain ⟨w1, cs, hrun, hc, hrc, hwc, hlast, hstr, hfs⟩ :=
    flagLoop_run w.streams.length C (C.length + 1) 0 B (w.during C 0 [] []) hs (by omega)
  refine ⟨w1, cs, ?_, ?_, hrc, hwc, hlast, ?_, ?_⟩
  · rw [flag_eq_loop B w C (C.length + 1) h (by omega), hrun]
  · rw [hc]; simp [World.during]
  · rw [hstr]; simp [World.during]
  · rw [hfs]; rfl

/-- Every call of `flag` ends: the loop budget is never used up. -/
theorem flag_terminates (B : List Byte) (w : World) : flag B w ≠ .outOfFuel := by
  cases h : w.fs.lookup "flag.txt" with
  | none => simp [flag, fopen, h]
  | some C =>
    obtain ⟨w1, cs, hrun, _⟩ := flag_run B C w h
    rw [hrun]
    simp

theorem zero_not_mem_replicate (n : Nat) (b : Byte) (hb : b ≠ 0) :
    (0 : Byte) ∉ List.replicate n b := by
  intro h
  exact hb (List.eq_of_mem_replicate h).symm

theorem padded_length (pre : List Byte) (h : pre.length ≤ 1024) :
    (padded pre).length = 1024 := by
  rw [padded, List.length_append, List.length_replicate]
  omega

/-! ## The helpers -/

/-- C1 (defect in the code): with `flag.txt` holding the three bytes `A`, zero, `B` and the
array zero at entry, `flag` appends only `A` to standard output, not the content of the
file: `fputs` stops at the zero byte. -/
theorem flag_stops_at_zero_byte :
    flag (padded []) (worldWith [65, 0, 66]) =
        .returned ((worldWith [65, 0, 66]).during [65, 0, 66] 3 [65]
          [.fread 3, .fputs [65], .fread 0]) ∧
      appended (worldWith [65, 0, 66]) (flag (padded []) (worldWith [65, 0, 66])) =
        some [65] := by
  decide

/-- C2: when `fopen` returns `NULL`, `flag` returns to its caller in a state that differs
from the one at entry only by the line `Couldn't open flag file!` on standard output and
by the log of the `fopen` and the `puts`: no read, no `exit`. -/
theorem flag_open_failure (B : List Byte) (w : World)
    (h : (fopen "flag.txt" w).1 = none) :
    ∃ w1, flag B w = .returned w1 ∧
      w1.stdout = w.stdout ++ bytes "Couldn't open flag file!\n" ∧
      w1.calls = w.calls ++
        [.fopen "flag.txt" false, .puts (bytes "Couldn't open flag file!")] ∧
      w1.streams = w.streams ∧ w1.fs = w.fs ∧
      appended w (flag B w) = some (bytes "Couldn't open flag file!\n") ∧
      ∀ k : World → Outcome, (flag B w).andThen k = k w1 := by
  have hl : w.fs.lookup "flag.txt" = none := by
    cases hl : w.fs.lookup "flag.txt" with
    | none => rfl
    | some C => simp [fopen, hl] at h
  have hb : bytes "Couldn't open flag file!" ++ [10] =
      bytes "Couldn't open flag file!\n" := by decide
  refine ⟨puts "Couldn't open flag file!"
    { w with calls := w.calls ++ [.fopen "flag.txt" false] }, ?_, ?_, ?_, rfl, rfl, ?_, ?_⟩
  · simp [flag, fopen, hl]
  · simp [puts, ← hb]
  · simp [puts]
  · simp [flag, fopen, hl, appended, Outcome.world, puts, ← hb]
  · intro k
    simp [flag, fopen, hl, Outcome.andThen]

theorem flag_open_failure_witness :
    (fopen "flag.txt" noFlag).1 = none ∧
    ∃ w1, flag (padded []) noFlag = .returned w1 ∧
      w1.stdout = noFlag.stdout ++ bytes "Couldn't open flag file!\n" ∧
      w1.calls = noFlag.calls ++
        [.fopen "flag.txt" false, .puts (bytes "Couldn't open flag file!")] ∧
      w1.streams = noFlag.streams ∧ w1.fs = noFlag.fs ∧
      appended noFlag (flag (padded []) noFlag) =
        some (bytes "Couldn't open flag file!\n") ∧
      ∀ k : World → Outcome, (flag (padded []) noFlag).andThen k = k w1 :=
  ⟨by decide, flag_open_failure (padded []) noFlag (by decide)⟩

/-- C3: from every state, `tryagain` appends the line `Try again!` to standard output and
ends the process with exit status 1; the code of the caller after the call never runs. -/
theorem tryagain_exits (w : World) :
    tryagain w = .exited 1 { w with
        stdout := w.stdout ++ bytes "Try again!\n"
        calls := w.calls ++ [.puts (bytes "Try again!"), .exit 1] } ∧
      appended w (tryagain w) = some (bytes "Try again!\n") ∧
      ∀ k : World → Outcome, (tryagain w).andThen k = tryagain w := by
  have hb : bytes "Try again!" ++ [10] = bytes "Try again!\n" := by decide
  refine ⟨?_, ?_, ?_⟩
  · simp [tryagain, exit, puts, ← hb]
  · simp [tryagain, exit, puts, appended, Outcome.world, ← hb]
  · intro k
    simp [tryagain, exit, Outcome.andThen]

/-- C4 as stated fails: with an empty `flag.txt` and no stream open at entry, `flag` returns
with handle 0 open. -/
theorem flag_handle_not_released :
    ∃ w1, flag (padded []) (worldWith []) = .returned w1 ∧
      (worldWith []).openHandles = ∅ ∧ w1.openHandles = {0} ∧
      w1.openHandles ≠ (worldWith []).openHandles :=
  ⟨(worldWith []).during [] 0 [] [.fread 0], by decide, by decide, by decide, by decide⟩

/-- C4, amended: when `fopen` succeeds with handle `ff`, every call of `flag` ends, and it
ends with exactly one more handle open than at entry, namely `ff`: the stream is not
closed. -/
theorem flag_handle_kept (B : List Byte) (w : World) (ff : Nat)
    (h : (fopen "flag.txt" w).1 = some ff) :
    ∃ w1, (flag B w).world = some w1 ∧ ff ∉ w.openHandles ∧
      w1.openHandles = insert ff w.openHandles := by
  obtain ⟨C, hl⟩ : ∃ C, w.fs.lookup "flag.txt" = some C := by
    cases hl : w.fs.lookup "flag.txt" with
    | none => simp [fopen, hl] at h
    | some C => exact ⟨C, rfl⟩
  have hff : ff = w.streams.length := by
    simp [fopen, hl] at h
    exact h.symm
  subst hff
  obtain ⟨w1, cs, hrun, _, _, _, _, hstr, _⟩ := flag_run B C w hl
  refine ⟨w1, by rw [hrun]; rfl, by simp [World.openHandles], ?_⟩
  simp [World.openHandles, hstr, Finset.range_succ]

theorem flag_handle_kept_witness :
    (fopen "flag.txt" (worldWith [67, 84, 70])).1 = some 0 ∧
    ∃ w1, (flag (padded []) (worldWith [67, 84, 70])).world = some w1 ∧
      0 ∉ (worldWith [67, 84, 70]).openHandles ∧
      w1.openHandles = insert 0 (worldWith [67, 84, 70]).openHandles :=
  ⟨by decide, flag_handle_kept (padded []) (worldWith [67, 84, 70]) 0 (by decide)⟩

/-- C5 (defect in the code): with `flag.txt` holding the single byte `A` and unchanged
between the calls, a first call entered with the array all zero appends `A`, and a second
call entered with `X` at index 1 of the array appends `AX`. -/
theorem flag_output_depends_on_array :
    ∃ w1, flag (padded []) (worldWith [65]) = .returned w1 ∧
      w1.fs = (worldWith [65]).fs ∧
      appended (worldWith [65]) (flag (padded []) (worldWith [65])) = some [65] ∧
      appended w1 (flag (padded [0, 88]) w1) = some [65, 88] :=
  ⟨(worldWith [65]).during [65] 1 [65] [.fread 1, .fputs [65], .fread 0],
    by decide, by decide, by decide, by decide⟩

/-- C6 (defect in the code): with `flag.txt` holding `CTF{test}` and a newline, and the
array holding `X` at index 10 and zero elsewhere at entry, `flag` appends the ten bytes of
the file followed by `X`. -/
theorem flag_ctf_leftover :
    flag (padded (List.replicate 10 0 ++ [88])) (worldWith (bytes "CTF\x7btest\x7d\n")) =
        .returned ((worldWith (bytes "CTF\x7btest\x7d\n")).during
          (bytes "CTF\x7btest\x7d\n") 10 (bytes "CTF\x7btest\x7d\nX")
          [.fread 10, .fputs (bytes "CTF\x7btest\x7d\nX"), .fread 0]) ∧
      appended (worldWith (bytes "CTF\x7btest\x7d\n"))
        (flag (padded (List.replicate 10 0 ++ [88])) (worldWith (bytes "CTF\x7btest\x7d\n"))) =
        some (bytes "CTF\x7btest\x7d\nX") := by
  decide

/-- C7: for every artifact `C` of `L` bytes, the loop of `flag` terminates and `flag`
returns. The reads return the sizes of the chunks of `C`, each between 1 and 1024 bytes
and `L` bytes in all, and then zero; the log ends with that read of zero bytes, the first
one. There are exactly `ceil(L/1024)` calls of `fputs`, none when `L = 0`. The cursor ends
at `L`, and every read moves the cursor forward by the count it returns, which is at most
1024. -/
theorem flag_read_loop (B C : List Byte) (w : World)
    (h : w.fs.lookup "flag.txt" = some C) :
    ∃ w1 cs, flag B w = .returned w1 ∧
      w1.calls = w.calls ++ Call.fopen "flag.txt" true :: cs ∧
      readCounts cs = chunkSizes C.length ++ [0] ∧
      (∀ n ∈ chunkSizes C.length, 0 < n ∧ n ≤ 1024) ∧
      (chunkSizes C.length).sum = C.length ∧
      writeCount cs = (C.length + 1023) / 1024 ∧
      (C.length = 0 → writeCount cs = 0) ∧
      cs.getLast? = some (.fread 0) ∧
      w1.streams = w.streams ++ [⟨C, C.length⟩] ∧
      ∀ (buffer : List Byte) (ff : Nat) (v : World) (f : FILE), v.streams[ff]? = some f →
        (fread buffer 1024 ff v).1 ≤ 1024 ∧
        (fread buffer 1024 ff v).2.2.streams[ff]? =
          some ⟨f.data, f.pos + (fread buffer 1024 ff v).1⟩ := by
  obtain ⟨w1, cs, hrun, hc, hrc, hwc, hlast, hstr, _⟩ := flag_run B C w h
  have hw : writeCount cs = (C.length + 1023) / 1024 := by
    rw [hwc, chunkSizes_length]
  refine ⟨w1, cs, hrun, hc, hrc, chunkSizes_bounds _, chunkSizes_sum _, hw, ?_, hlast,
    hstr, ?_⟩
  · intro h0
    rw [hw, h0]
  · intro buffer ff v f hf
    have hlt : ff < v.streams.length := by
      rcases List.getElem?_eq_some.mp hf with ⟨hlt, _⟩
      exact hlt
    constructor
    · simp only [fread, hf, List.length_take]
      omega
    · simp only [fread, hf]
      simp [List.getElem?_set_self, hlt]

theorem flag_read_loop_witness :
    (worldWith (List.replicate 2048 65)).fs.lookup "flag.txt" = some (List.replicate 2048 65) ∧
    ∃ w1 cs, flag (padded []) (worldWith (List.replicate 2048 65)) = .returned w1 ∧
      w1.calls =
        (worldWith (List.replicate 2048 65)).calls ++ Call.fopen "flag.txt" true :: cs ∧
      readCounts cs = [1024, 1024, 0] ∧ writeCount cs = 2 ∧
      cs.getLast? = some (.fread 0) :=
  ⟨rfl, by
    obtain ⟨w1, cs, hrun, hc, hrc, _, _, hwc, _, hlast, _⟩ :=
      flag_read_loop (padded []) (List.replicate 2048 65)
        (worldWith (List.replicate 2048 65)) rfl
    rw [List.length_replicate] at hrc hwc
    exact ⟨w1, cs, hrun, hc, by rw [hrc]; decide, by rw [hwc], hlast⟩⟩

/-- C8: an artifact `C` of fewer than 1024 bytes, not empty, read into an array with
content `B` at entry, where `S = C ++ B[|C| ..]` holds a zero byte. `flag` returns after one
write and appends exactly the part of `S` before its first zero byte. That output is `C`
exactly when `C` has no zero byte and `B[|C|] = 0`; it is a strict prefix of `C` when `C` has
a zero byte; otherwise it is `C` followed by a nonempty run of leftover bytes of the array. -/
theorem flag_short_artifact (B C : List Byte) (w : World)
    (h : w.fs.lookup "flag.txt" = some C) (hB : B.length = 1024)
    (h0 : 0 < C.length) (h1 : C.length < 1024)
    (hz : (0 : Byte) ∈ C ++ B.drop C.length) :
    flag B w = .returned (w.during C C.length (beforeZero (C ++ B.drop C.length))
        [.fread C.length, .fputs (beforeZero (C ++ B.drop C.length)), .fread 0]) ∧
      appended w (flag B w) = some (beforeZero (C ++ B.drop C.length)) ∧
      (beforeZero (C ++ B.drop C.length) = C ↔ (0 : Byte) ∉ C ∧ B[C.length]? = some 0) ∧
      ((0 : Byte) ∈ C → ∃ t, t ≠ [] ∧ C = beforeZero (C ++ B.drop C.length) ++ t) ∧
      ((0 : Byte) ∉ C → B[C.length]? ≠ some 0 →
        ∃ t, t ≠ [] ∧ t <+: B.drop C.length ∧ beforeZero (C ++ B.drop C.length) = C ++ t) := by
  have hflag := flag_one_chunk B C _ w h h0 (by omega) (cstring_ok _ 0 hz)
  have hlt : C.length < B.length := by omega
  have hR : B.drop C.length = B[C.length] :: B.drop (C.length + 1) :=
    List.drop_eq_getElem_cons hlt
  have hget : B[C.length]? = some B[C.length] := List.getElem?_eq_getElem hlt
  refine ⟨hflag, ?_, ?_, ?_, ?_⟩
  · rw [hflag, appended_during]
  · by_cases hC : (0 : Byte) ∈ C
    · obtain ⟨t, ht, hCt⟩ := beforeZero_strict C hC
      rw [beforeZero_append_of_mem C _ hC]
      constructor
      · intro heq
        rw [heq] at hCt
        exact absurd (List.self_eq_append_right.mp hCt) ht
      · intro hh
        exact absurd hC hh.1
    · rw [beforeZero_append_of_not_mem C _ hC, hR, hget]
      by_cases hb : B[C.length] = 0
      · simp [beforeZero, hb, hC]
      · simp [beforeZero, hb, hC]
  · intro hC
    rw [beforeZero_append_of_mem C _ hC]
    exact beforeZero_strict C hC
  · intro hC hb
    have hb1 : B[C.length] ≠ 0 := by
      intro h0
      rw [hget, h0] at hb
      exact hb rfl
    refine ⟨beforeZero (B.drop C.length), ?_, beforeZero_initial _,
      beforeZero_append_of_not_mem C _ hC⟩
    rw [hR]
    simp [beforeZero, hb1]

theorem flag_short_artifact_witness :
    (worldWith [67, 84, 70]).fs.lookup "flag.txt" = some [67, 84, 70] ∧
    (padded [1, 2, 3, 4, 5]).length = 1024 ∧
    0 < [(67 : Byte), 84, 70].length ∧ [(67 : Byte), 84, 70].length < 1024 ∧
    (0 : Byte) ∈ [67, 84, 70] ++ (padded [1, 2, 3, 4, 5]).drop [(67 : Byte), 84, 70].length ∧
    beforeZero ([67, 84, 70] ++ (padded [1, 2, 3, 4, 5]).drop [(67 : Byte), 84, 70].length) =
      [67, 84, 70, 4, 5] ∧
    appended (worldWith [67, 84, 70]) (flag (padded [1, 2, 3, 4, 5]) (worldWith [67, 84, 70])) =
      some (beforeZero
        ([67, 84, 70] ++ (padded [1, 2, 3, 4, 5]).drop [(67 : Byte), 84, 70].length)) :=
  ⟨by decide, padded_length _ (by decide), by decide, by decide, by decide, by decide,
    (flag_short_artifact (padded [1, 2, 3, 4, 5]) [67, 84, 70] (worldWith [67, 84, 70])
      (by decide) (padded_length _ (by decide)) (by decide) (by decide) (by decide)).2.1⟩

/-- C9: an artifact `C` of `1024 + k` bytes, `0 < k < 1024`, whose first zero byte within
`C[0 .. 1024)` is at index `p` with `k ≤ p`, and whose last `k` bytes hold no zero byte, read
into an array of 1024 bytes. `flag` returns after two writes and appends
`C[0 .. p) ++ C[1024 .. 1024 + k) ++ C[k .. p)`: the second write emits again the bytes of
the first chunk that the second read did not overwrite. -/
theorem flag_stale_bytes (B C : List Byte) (k p : Nat) (w : World)
    (h : w.fs.lookup "flag.txt" = some C) (hB : B.length = 1024)
    (hk0 : 0 < k) (hk : k < 1024) (hlen : C.length = 1024 + k)
    (hp : p < 1024) (hkp : k ≤ p) (hzero : C[p]? = some 0)
    (hfirst : (0 : Byte) ∉ C.take p) (htail : (0 : Byte) ∉ C.drop 1024) :
    flag B w = .returned (w.during C (1024 + k)
        (C.take p ++ (C.drop 1024 ++ (C.drop k).take (p - k)))
        [.fread 1024, .fputs (C.take p), .fread k,
          .fputs (C.drop 1024 ++ (C.drop k).take (p - k)), .fread 0]) ∧
      appended w (flag B w) =
        some (C.take p ++ (C.drop 1024 ++ (C.drop k).take (p - k))) := by
  have hd : B.drop 1024 = [] := List.drop_of_length_le (by omega)
  -- the first write
  have hA : (C.take 1024).take p = C.take p := by
    rw [List.take_take, Nat.min_eq_left (by omega)]
  have hAp : (C.take 1024)[p]? = some 0 := by
    rw [List.getElem?_take_of_lt hp, hzero]
  obtain ⟨h1, hmem1⟩ := beforeZero_first_zero (C.take 1024) p (by rw [hA]; exact hfirst) hAp
  rw [hA] at h1
  have hs1 : cstring 0 (C.take 1024 ++ B.drop 1024) = .ok (C.take p) := by
    rw [hd, List.append_nil, cstring_ok _ 0 hmem1, h1]
  -- the second write
  have hRtake : ((C.take 1024).drop k).take (p - k) = (C.drop k).take (p - k) := by
    rw [List.drop_take, List.take_take, Nat.min_eq_left (by omega)]
  have hRmem : (0 : Byte) ∉ ((C.take 1024).drop k).take (p - k) := by
    intro hm
    rw [hRtake, List.take_drop, show k + (p - k) = p by omega] at hm
    exact hfirst (List.mem_of_mem_drop hm)
  have hRp : ((C.take 1024).drop k)[p - k]? = some 0 := by
    rw [List.getElem?_drop, show k + (p - k) = p by omega, hAp]
  obtain ⟨h2, hmem2⟩ := beforeZero_first_zero ((C.take 1024).drop k) (p - k) hRmem hRp
  rw [hRtake] at h2
  have hs2 : cstring 0 (C.drop 1024 ++ (C.take 1024 ++ B.drop 1024).drop k) =
      .ok (C.drop 1024 ++ (C.drop k).take (p - k)) := by
    rw [hd, List.append_nil, cstring_ok _ 0 (List.mem_append_right _ hmem2),
      beforeZero_append_of_not_mem _ _ htail, h2]
  have hflag := flag_two_chunks B C _ _ k w h hk0 (by omega) hlen hs1 hs2
  exact ⟨hflag, by rw [hflag, appended_during]⟩

set_option maxRecDepth 20000 in
theorem flag_stale_bytes_witness :
    (worldWith staleArtifact).fs.lookup "flag.txt" = some staleArtifact ∧
    (padded []).length = 1024 ∧ staleArtifact.length = 1024 + 2 ∧
    staleArtifact[4]? = some 0 ∧ (0 : Byte) ∉ staleArtifact.take 4 ∧
    (0 : Byte) ∉ staleArtifact.drop 1024 ∧
    staleArtifact.take 4 ++ (staleArtifact.drop 1024 ++ (staleArtifact.drop 2).take (4 - 2)) =
      [65, 66, 67, 68, 88, 89, 67, 68] ∧
    appended (worldWith staleArtifact) (flag (padded []) (worldWith staleArtifact)) =
      some (staleArtifact.take 4 ++
        (staleArtifact.drop 1024 ++ (staleArtifact.drop 2).take (4 - 2))) :=
  ⟨rfl, padded_length _ (by decide), by decide, by decide, by decide, by decide, by decide,
    (flag_stale_bytes (padded []) staleArtifact 2 4 (worldWith staleArtifact) rfl
      (padded_length _ (by decide)) (by decide) (by decide) (by decide) (by decide)
      (by decide) (by decide) (by decide) (by decide)).2⟩

/-- C10: an artifact of at least 1024 bytes whose first 1024 bytes hold no zero byte, read
into an array of 1024 bytes. After the first read the array holds exactly those 1024 bytes,
the scan of the write for a zero byte leaves the array at index 1024, and `fputs` takes its
error branch at that index. The source drops that result: the call goes on as the rest of
the loop from the state after one read and that write, with nothing added to standard
output, and the log of the call starts with the read of 1024 bytes and the overrun at
index 1024. -/
theorem flag_unterminated_write (B C : List Byte) (w : World)
    (h : w.fs.lookup "flag.txt" = some C) (hB : B.length = 1024) (hlen : 1024 ≤ C.length)
    (hnz : (0 : Byte) ∉ C.take 1024) :
    (fread B 1024 w.streams.length (w.during C 0 [] [])).2.1 = C.take 1024 ∧
      cstring 0 (C.take 1024) = .error 1024 ∧
      fputs (C.take 1024) (w.during C 1024 [] [.fread 1024]) = .error 1024 ∧
      flag B w = flagLoop C.length w.streams.length (C.take 1024)
        (w.during C 1024 [] [.fread 1024, .overrun 1024]) ∧
      ∃ w1 cs, flag B w = .returned w1 ∧
        w1.calls =
          w.calls ++ [.fopen "flag.txt" true, .fread 1024, .overrun 1024] ++ cs := by
  have hl : (C.take 1024).length = 1024 := by rw [List.length_take]; omega
  have hd : B.drop 1024 = [] := List.drop_of_length_le (by omega)
  have hc : cstring 0 (C.take 1024) = .error 1024 := by
    rw [cstring_error _ 0 hnz, hl]
  have hs : cstring 0 (C.take 1024 ++ B.drop (C.take 1024).length) = .error 1024 := by
    rw [hl, hd, List.append_nil, hc]
  have hflag := flag_first_overrun B C 1024 C.length w h (by omega) (Nat.le_refl _) hs
  rw [hl, hd, List.append_nil] at hflag
  have hstream : (w.during C 1024 [] [.fread 1024, .overrun 1024]).streams[w.streams.length]? =
      some ⟨C, 1024⟩ := by
    simp [World.during]
  obtain ⟨w1, cs, hrun, hcalls, _⟩ := flagLoop_run w.streams.length C C.length 1024
    (C.take 1024) (w.during C 1024 [] [.fread 1024, .overrun 1024]) hstream (by omega)
  refine ⟨?_, hc, ?_, hflag, w1, cs, by rw [hflag, hrun], ?_⟩
  · simp [fread, World.during, hl, hd]
  · simp [fputs, hc]
  · rw [hcalls]
    simp [World.during]

theorem flag_unterminated_write_witness :
    (worldWith (List.replicate 1024 65)).fs.lookup "flag.txt" = some (List.replicate 1024 65) ∧
    (padded []).length = 1024 ∧ 1024 ≤ (List.replicate 1024 (65 : Byte)).length ∧
    (0 : Byte) ∉ (List.replicate 1024 65).take 1024 ∧
    fputs ((List.replicate 1024 65).take 1024)
      ((worldWith (List.replicate 1024 65)).during (List.replicate 1024 65) 1024 []
        [.fread 1024]) = .error 1024 ∧
    ∃ w1 cs, flag (padded []) (worldWith (List.replicate 1024 65)) = .returned w1 ∧
      w1.calls = (worldWith (List.replicate 1024 65)).calls ++
        [.fopen "flag.txt" true, .fread 1024, .overrun 1024] ++ cs :=
  ⟨rfl, padded_length _ (by decide), by rw [List.length_replicate],
    fun h => zero_not_mem_replicate 1024 65 (by decide) (List.mem_of_mem_take h),
    (flag_unterminated_write (padded []) (List.replicate 1024 65)
      (worldWith (List.replicate 1024 65)) rfl (padded_length _ (by decide))
      (by rw [List.length_replicate])
      (fun h => zero_not_mem_replicate 1024 65 (by decide) (List.mem_of_mem_take h))).2.2.1,
    (flag_unterminated_write (padded []) (List.replicate 1024 65)
      (worldWith (List.replicate 1024 65)) rfl (padded_length _ (by decide))
      (by rw [List.length_replicate])
      (fun h => zero_not_mem_replicate 1024 65 (by decide)
        (List.mem_of_mem_take h))).2.2.2.2⟩

end Helpers
